import Mathlib

/-!
Verification of the Huffman compressor (`src/main.rs`).

The Rust source is shallowly embedded as follows:
* `HashMap<char, usize>` and `HashMap<char, String>` become association lists
  (`List (Char × Nat)`, `List (Char × List Char)`); `HashMap::insert` is
  `insertA`, `HashMap::get` / indexing is `lookupA`.
* Rust `String`s of bit characters become `List Char`.
* The `BinaryHeap<HuffmanNode>` (a min-heap by `frequency`, ties broken by an
  implementation-defined order) is modelled deterministically as a list kept
  sorted by ascending frequency, with new nodes inserted behind equal keys.
* Panics (`unwrap` on the empty heap, `codes[&c]` on a missing key) are
  modelled as `none`.
-/

namespace Huffman

/-- Association-list lookup, modelling `HashMap::get`. -/
def lookupA {α β : Type} [DecidableEq α] : List (α × β) → α → Option β
  | [], _ => none
  | (k, v) :: rest, key => if k = key then some v else lookupA rest key

/-- Association-list insert-or-replace, modelling `HashMap::insert`. -/
def insertA {α β : Type} [DecidableEq α] : List (α × β) → α → β → List (α × β)
  | [], key, val => [(key, val)]
  | (k, v) :: rest, key, val =>
    if k = key then (k, val) :: rest else (k, v) :: insertA rest key val

/-- One step of frequency counting:
`*frequencies.entry(character).or_insert(0) += 1` (main.rs line 81). -/
def bump : List (Char × Nat) → Char → List (Char × Nat)
  | [], c => [(c, 1)]
  | (k, v) :: rest, c => if k = c then (k, v + 1) :: rest else (k, v) :: bump rest c

/-- The frequency table built by `huffman_compress` (main.rs lines 79-82),
entries listed in first-occurrence order. -/
def countFreq (input : List Char) : List (Char × Nat) :=
  input.foldl bump []

/-- The `HuffmanNode` struct (main.rs lines 9-15). -/
inductive HuffmanNode : Type where
  | mk (frequency : Nat) (character : Option Char)
      (left : Option HuffmanNode) (right : Option HuffmanNode) : HuffmanNode

def HuffmanNode.frequency : HuffmanNode → Nat
  | .mk f _ _ _ => f

def HuffmanNode.character : HuffmanNode → Option Char
  | .mk _ c _ _ => c

def HuffmanNode.left : HuffmanNode → Option HuffmanNode
  | .mk _ _ l _ => l

def HuffmanNode.right : HuffmanNode → Option HuffmanNode
  | .mk _ _ _ r => r

/-- Insertion into the heap model: the heap is a list sorted by ascending
`frequency`; a new node goes behind existing nodes of equal frequency
(one concrete realisation of the heap's implementation-defined tie-break). -/
def insNode (x : HuffmanNode) : List HuffmanNode → List HuffmanNode
  | [] => [x]
  | y :: ys => if y.frequency ≤ x.frequency then y :: insNode x ys else x :: y :: ys

theorem insNode_length (x : HuffmanNode) (l : List HuffmanNode) :
    (insNode x l).length = l.length + 1 := by
  induction l with
  | nil => rfl
  | cons y ys ih => simp only [insNode]; split <;> simp [ih]

/-- The merge loop of `build_huffman_tree` (main.rs lines 51-62): while the
heap has more than one node, pop the two minima, merge them into an internal
node (left = first popped, right = second popped) and push it back.  The final
`heap.pop().unwrap()` panics on an empty heap, modelled as `none`. -/
def buildLoop : List HuffmanNode → Option HuffmanNode
  | [] => none
  | [t] => some t
  | a :: b :: rest =>
    buildLoop (insNode (HuffmanNode.mk (a.frequency + b.frequency) none (some a) (some b)) rest)
termination_by l => l.length
decreasing_by simp [insNode_length]

/-- A leaf node for one frequency-table entry:
`HuffmanNode::new(frequency, Some(character))` (main.rs line 48). -/
def leafOf (cf : Char × Nat) : HuffmanNode :=
  HuffmanNode.mk cf.2 (some cf.1) none none

/-- The initial heap of `build_huffman_tree` (main.rs lines 45-49): one leaf
per frequency-table entry. -/
def heapify (frequencies : List (Char × Nat)) : List HuffmanNode :=
  frequencies.foldl (fun heap cf => insNode (leafOf cf) heap) []

/-- `build_huffman_tree` (main.rs lines 44-63). -/
def build_huffman_tree (frequencies : List (Char × Nat)) : Option HuffmanNode :=
  buildLoop (heapify frequencies)

/-- `build_codes` (main.rs lines 65-76): record the accumulated prefix at a
leaf; otherwise descend left appending `'0'` and right appending `'1'`. -/
def build_codes : HuffmanNode → List Char → List (Char × List Char) → List (Char × List Char)
  | .mk _ (some c) _ _, pre, codes => insertA codes c pre
  | .mk _ none l r, pre, codes =>
    let codes1 := match l with
      | some ln => build_codes ln (pre ++ ['0']) codes
      | none => codes
    match r with
    | some rn => build_codes rn (pre ++ ['1']) codes1
    | none => codes1

/-- The encoding step of `huffman_compress` (main.rs lines 89-92):
`input.chars().map(|c| codes[&c].clone()).collect::<Vec<String>>().join("")`;
the indexing `codes[&c]` panics on a missing key, modelled as `none`. -/
def encodeAll (input : List Char) (codes : List (Char × List Char)) : Option (List Char) :=
  match input with
  | [] => some []
  | c :: rest =>
    match lookupA codes c, encodeAll rest codes with
    | some p, some r => some (p ++ r)
    | _, _ => none

/-- `huffman_compress` (main.rs lines 78-95). -/
def huffman_compress (input : List Char) :
    Option (List Char × List (Char × List Char)) :=
  match build_huffman_tree (countFreq input) with
  | none => none
  | some root =>
    let codes := build_codes root [] []
    match encodeAll input codes with
    | none => none
    | some compressed => some (compressed, codes)

/-- The reverse map built by `huffman_decompress` (main.rs lines 98-101):
`reverse_codes.insert(code.clone(), char)` for each entry of the code table. -/
def revMap (codes : List (Char × List Char)) : List (List Char × Char) :=
  codes.foldl (fun m e => insertA m e.2 e.1) []

/-- `huffman_decompress` (main.rs lines 97-112): look up each single
character of the compressed string in the reverse map; push the symbol on a
hit and silently skip the character otherwise. -/
def huffman_decompress (compressed : List Char) (codes : List (Char × List Char)) :
    List Char :=
  compressed.filterMap (fun bit => lookupA (revMap codes) [bit])

/-- Leaf characters of a tree, left to right. -/
def HuffmanNode.chars : HuffmanNode → List Char
  | .mk _ (some c) _ _ => [c]
  | .mk _ none l r =>
    (match l with | some ln => ln.chars | none => []) ++
    (match r with | some rn => rn.chars | none => [])

/-- The code table of a tree as a plain list, mirroring the traversal order
of `build_codes` but without the insert-replace bookkeeping. -/
def codesList : HuffmanNode → List Char → List (Char × List Char)
  | .mk _ (some c) _ _, pre => [(c, pre)]
  | .mk _ none l r, pre =>
    (match l with | some ln => codesList ln (pre ++ ['0']) | none => []) ++
    (match r with | some rn => codesList rn (pre ++ ['1']) | none => [])

/-- Depth of the leftmost leaf carrying a given character. -/
def leafDepth : HuffmanNode → Char → Option Nat
  | .mk _ (some c') _ _, c => if c' = c then some 0 else none
  | .mk _ none l r, c =>
    match (match l with | some ln => leafDepth ln c | none => none) with
    | some d => some (d + 1)
    | none =>
      match r with
      | some rn => (leafDepth rn c).map (· + 1)
      | none => none

/-! ### Association-list lemmas -/

theorem lookupA_append_some {α β : Type} [DecidableEq α] {l₁ : List (α × β)}
    {k : α} {v : β} (l₂ : List (α × β)) (h : lookupA l₁ k = some v) :
    lookupA (l₁ ++ l₂) k = some v := by
  induction l₁ with
  | nil => simp [lookupA] at h
  | cons e t ih =>
    obtain ⟨a, b⟩ := e
    simp only [lookupA, List.cons_append] at h ⊢
    split at h
    · simp [*]
    · simp only [*, if_neg]
      exact ih h

theorem lookupA_append_none {α β : Type} [DecidableEq α] {l₁ : List (α × β)}
    {k : α} (l₂ : List (α × β)) (h : lookupA l₁ k = none) :
    lookupA (l₁ ++ l₂) k = lookupA l₂ k := by
  induction l₁ with
  | nil => rfl
  | cons e t ih =>
    obtain ⟨a, b⟩ := e
    simp only [lookupA, List.cons_append] at h ⊢
    split at h
    · exact absurd h (by simp)
    · simp only [*, if_neg]
      exact ih h

theorem lookupA_mem {α β : Type} [DecidableEq α] {l : List (α × β)} {k : α} {v : β}
    (h : lookupA l k = some v) : (k, v) ∈ l := by
  induction l with
  | nil => simp [lookupA] at h
  | cons e t ih =>
    obtain ⟨a, b⟩ := e
    by_cases hk : a = k
    · subst hk
      simp only [lookupA, if_true, eq_self_iff_true, Option.some.injEq] at h
      subst h
      exact List.mem_cons_self _ _
    · simp only [lookupA, if_neg hk] at h
      exact List.mem_cons_of_mem _ (ih h)

theorem lookupA_eq_none_iff {α β : Type} [DecidableEq α] {l : List (α × β)} {k : α} :
    lookupA l k = none ↔ k ∉ l.map Prod.fst := by
  induction l with
  | nil => simp [lookupA]
  | cons e t ih =>
    obtain ⟨a, b⟩ := e
    simp only [lookupA, List.map_cons, List.mem_cons]
    by_cases hk : a = k
    · simp [hk]
    · simp [hk, ih, Ne.symm hk]

theorem lookupA_isSome_of_mem_keys {α β : Type} [DecidableEq α] {l : List (α × β)}
    {k : α} (h : k ∈ l.map Prod.fst) : (lookupA l k).isSome := by
  cases hl : lookupA l k with
  | none => exact absurd (lookupA_eq_none_iff.mp hl) (by simpa using h)
  | some v => rfl

theorem insertA_of_not_mem {α β : Type} [DecidableEq α] {l : List (α × β)} {k : α}
    (v : β) (h : k ∉ l.map Prod.fst) : insertA l k v = l ++ [(k, v)] := by
  induction l with
  | nil => rfl
  | cons e t ih =>
    obtain ⟨a, b⟩ := e
    simp only [List.map_cons, List.mem_cons] at h
    push_neg at h
    simp only [insertA, if_neg (Ne.symm h.1), List.cons_append, List.cons.injEq, true_and]
    exact ih h.2

theorem lookupA_insertA {α β : Type} [DecidableEq α] (l : List (α × β)) (k key : α)
    (v : β) : lookupA (insertA l k v) key = if k = key then some v else lookupA l key := by
  induction l with
  | nil => simp [insertA, lookupA]
  | cons e t ih =>
    obtain ⟨a, b⟩ := e
    simp only [insertA]
    by_cases hak : a = k
    · subst hak
      by_cases hk : a = key
      · simp [lookupA, hk]
      · simp [lookupA, hk]
    · simp only [if_neg hak, lookupA, ih]
      by_cases hkk : k = key
      · have hk : a ≠ key := fun h => hak (h.trans hkk.symm)
        simp [hk, hkk]
      · by_cases hk : a = key
        · simp [hk, hkk]
        · simp [hk, hkk]

/-! ### Frequency-table lemmas -/

theorem keys_bump (l : List (Char × Nat)) (c : Char) :
    (bump l c).map Prod.fst =
      if c ∈ l.map Prod.fst then l.map Prod.fst else l.map Prod.fst ++ [c] := by
  induction l with
  | nil => simp [bump]
  | cons e t ih =>
    obtain ⟨a, b⟩ := e
    simp only [bump]
    by_cases hac : a = c
    · simp [hac]
    · simp only [if_neg hac, List.map_cons, ih, List.mem_cons]
      by_cases hc : c ∈ t.map Prod.fst
      · simp [hc, Ne.symm hac]
      · simp [hc, Ne.symm hac]

theorem mem_keys_bump {l : List (Char × Nat)} {c k : Char} :
    k ∈ (bump l c).map Prod.fst ↔ k ∈ l.map Prod.fst ∨ k = c := by
  rw [keys_bump]
  split
  · rename_i h
    constructor
    · exact Or.inl
    · rintro (hk | rfl)
      · exact hk
      · exact h
  · simp

theorem nodup_keys_bump {l : List (Char × Nat)} (c : Char)
    (h : (l.map Prod.fst).Nodup) : ((bump l c).map Prod.fst).Nodup := by
  rw [keys_bump]
  split
  · exact h
  · rename_i hc
    refine List.Nodup.append h (List.nodup_singleton c) ?_
    intro x hx hxc
    simp only [List.mem_singleton] at hxc
    subst hxc
    exact hc hx

theorem countFreq_aux (input : List Char) (acc : List (Char × Nat))
    (hacc : (acc.map Prod.fst).Nodup) :
    ((input.foldl bump acc).map Prod.fst).Nodup ∧
      ∀ k, k ∈ (input.foldl bump acc).map Prod.fst ↔ k ∈ acc.map Prod.fst ∨ k ∈ input := by
  induction input generalizing acc with
  | nil => simpa using hacc
  | cons c rest ih =>
    obtain ⟨h1, h2⟩ := ih (bump acc c) (nodup_keys_bump c hacc)
    refine ⟨h1, fun k => ?_⟩
    rw [List.foldl_cons] at *
    rw [h2 k, mem_keys_bump]
    simp only [List.mem_cons]
    tauto

theorem nodup_keys_countFreq (input : List Char) :
    ((countFreq input).map Prod.fst).Nodup :=
  (countFreq_aux input [] (by simp)).1

theorem mem_keys_countFreq {input : List Char} {k : Char} :
    k ∈ (countFreq input).map Prod.fst ↔ k ∈ input := by
  have := (countFreq_aux input [] (by simp)).2 k
  simpa [countFreq] using this

/-! ### Heap-model lemmas -/

/-- The heap order of the model: ascending frequency. -/
abbrev nodeLe (a b : HuffmanNode) : Prop := a.frequency ≤ b.frequency

theorem insNode_perm (x : HuffmanNode) (l : List HuffmanNode) :
    List.Perm (insNode x l) (x :: l) := by
  induction l with
  | nil => exact List.Perm.refl _
  | cons y ys ih =>
    simp only [insNode]
    split
    · exact (ih.cons y).trans (List.Perm.swap x y ys)
    · exact List.Perm.refl _

theorem insNode_mem {x y : HuffmanNode} {l : List HuffmanNode} :
    y ∈ insNode x l ↔ y = x ∨ y ∈ l := by
  rw [(insNode_perm x l).mem_iff]
  simp

theorem insNode_sorted {x : HuffmanNode} {l : List HuffmanNode}
    (h : l.Pairwise nodeLe) : (insNode x l).Pairwise nodeLe := by
  induction l with
  | nil => simp [insNode]
  | cons y ys ih =>
    rw [List.pairwise_cons] at h
    obtain ⟨hy, hys⟩ := h
    simp only [insNode]
    split
    · rename_i hle
      rw [List.pairwise_cons]
      refine ⟨fun z hz => ?_, ih hys⟩
      rcases insNode_mem.mp hz with rfl | hz
      · exact hle
      · exact hy z hz
    · rename_i hgt
      push_neg at hgt
      rw [List.pairwise_cons]
      refine ⟨fun z hz => ?_, List.pairwise_cons.mpr ⟨hy, hys⟩⟩
      rcases List.mem_cons.mp hz with rfl | hz
      · exact le_of_lt hgt
      · exact le_trans (le_of_lt hgt) (hy z hz)

theorem insNode_split {x : HuffmanNode} {l : List HuffmanNode}
    (h : l.Pairwise nodeLe) :
    ∃ l₁ l₂, l = l₁ ++ l₂ ∧ insNode x l = l₁ ++ x :: l₂ ∧
      (∀ y ∈ l₁, y.frequency ≤ x.frequency) ∧
      ∀ y ∈ l₂, x.frequency < y.frequency := by
  induction l with
  | nil => exact ⟨[], [], rfl, rfl, by simp, by simp⟩
  | cons y ys ih =>
    rw [List.pairwise_cons] at h
    obtain ⟨hy, hys⟩ := h
    by_cases hle : y.frequency ≤ x.frequency
    · obtain ⟨l₁, l₂, h1, h2, h3, h4⟩ := ih hys
      refine ⟨y :: l₁, l₂, by simp [h1], ?_, fun z hz => ?_, h4⟩
      · simp only [insNode, if_pos hle, h2, List.cons_append]
      · rcases List.mem_cons.mp hz with rfl | hz
        · exact hle
        · exact h3 z hz
    · push_neg at hle
      refine ⟨[], y :: ys, rfl, ?_, by simp, fun z hz => ?_⟩
      · simp only [insNode, if_neg (not_le.mpr hle), List.nil_append]
      · rcases List.mem_cons.mp hz with rfl | hz
        · exact hle
        · exact lt_of_lt_of_le hle (hy z hz)

/-- `u` occurs at a strictly earlier position than `v` in `L`. -/
def Before (u v : HuffmanNode) (L : List HuffmanNode) : Prop :=
  ∃ A B C, L = A ++ u :: B ++ v :: C

theorem pairwise_of_before {R : HuffmanNode → HuffmanNode → Prop}
    {L : List HuffmanNode} (hp : L.Pairwise R) {u v : HuffmanNode}
    (h : Before u v L) : R u v := by
  obtain ⟨A, B, C, rfl⟩ := h
  rw [List.pairwise_append] at hp
  exact hp.2.2 u (List.mem_append.mpr (Or.inr (List.mem_cons_self u B)))
    v (List.mem_cons_self v C)

theorem before_of_lt {L : List HuffmanNode} (hs : L.Pairwise nodeLe)
    {u v : HuffmanNode} (hu : u ∈ L) (hv : v ∈ L)
    (hlt : u.frequency < v.frequency) : Before u v L := by
  induction L with
  | nil => exact absurd hu (List.not_mem_nil u)
  | cons z t ih =>
    rw [List.pairwise_cons] at hs
    obtain ⟨hz, ht⟩ := hs
    by_cases hzu : z = u
    · subst hzu
      have hvt : v ∈ t := by
        rcases List.mem_cons.mp hv with rfl | h
        · exact absurd hlt (lt_irrefl _)
        · exact h
      obtain ⟨B, C, rfl⟩ := List.append_of_mem hvt
      exact ⟨[], B, C, by simp⟩
    · have hut : u ∈ t := (List.mem_cons.mp hu).resolve_left fun h => hzu h.symm
      have hvt : v ∈ t := by
        rcases List.mem_cons.mp hv with rfl | h
        · exact absurd (hz u hut) (not_le.mpr hlt)
        · exact h
      obtain ⟨A, B, C, h⟩ := ih ht hut hvt
      exact ⟨z :: A, B, C, by simp [h]⟩

theorem before_insNode {u v x : HuffmanNode} {L : List HuffmanNode}
    (h : Before u v L) : Before u v (insNode x L) := by
  obtain ⟨A, B, C, rfl⟩ := h
  induction A with
  | nil =>
    simp only [List.nil_append, insNode]
    split
    · have hv : v ∈ insNode x (B ++ v :: C) := insNode_mem.mpr (Or.inr (by simp))
      obtain ⟨P, Q, hPQ⟩ := List.append_of_mem hv
      exact ⟨[], P, Q, by simp [hPQ]⟩
    · exact ⟨[x], B, C, rfl⟩
  | cons a A' ih =>
    simp only [List.cons_append, insNode]
    split
    · obtain ⟨A'', B'', C'', h⟩ := ih
      exact ⟨a :: A'', B'', C'', congrArg (List.cons a) h⟩
    · exact ⟨x :: a :: A', B, C, rfl⟩

/-- All leaf characters present in a heap. -/
def poolChars (L : List HuffmanNode) : List Char :=
  (L.map HuffmanNode.chars).flatten

theorem poolChars_perm {L L' : List HuffmanNode} (h : List.Perm L L') :
    List.Perm (poolChars L) (poolChars L') :=
  (h.map HuffmanNode.chars).flatten

theorem heapify_perm (fs : List (Char × Nat)) :
    List.Perm (heapify fs) (fs.map leafOf) := by
  suffices h : ∀ acc, List.Perm
      (fs.foldl (fun heap cf => insNode (leafOf cf) heap) acc)
      (acc ++ fs.map leafOf) by
    simpa [heapify] using h []
  induction fs with
  | nil => intro acc; simp
  | cons e rest ih =>
    intro acc
    simp only [List.foldl_cons, List.map_cons]
    refine (ih (insNode (leafOf e) acc)).trans ?_
    refine ((insNode_perm (leafOf e) acc).append_right _).trans ?_
    simp only [List.cons_append]
    exact List.perm_middle.symm

theorem heapify_sorted (fs : List (Char × Nat)) : (heapify fs).Pairwise nodeLe := by
  suffices h : ∀ acc, acc.Pairwise nodeLe →
      (fs.foldl (fun heap cf => insNode (leafOf cf) heap) acc).Pairwise nodeLe from
    h [] (by simp)
  induction fs with
  | nil => exact fun acc hacc => hacc
  | cons e rest ih =>
    intro acc hacc
    exact ih _ (insNode_sorted hacc)

theorem poolChars_map_leafOf (fs : List (Char × Nat)) :
    poolChars (fs.map leafOf) = fs.map Prod.fst := by
  induction fs with
  | nil => rfl
  | cons e rest ih =>
    simp only [List.map_cons, poolChars, List.flatten_cons] at ih ⊢
    rw [ih]
    rfl

theorem heapify_poolChars (fs : List (Char × Nat)) :
    List.Perm (poolChars (heapify fs)) (fs.map Prod.fst) := by
  have h1 := poolChars_perm (heapify_perm fs)
  rw [poolChars_map_leafOf] at h1
  exact h1

theorem heapify_length (fs : List (Char × Nat)) :
    (heapify fs).length = fs.length :=
  (heapify_perm fs).length_eq.trans (by simp)

theorem mem_heapify {fs : List (Char × Nat)} {cf : Char × Nat} (h : cf ∈ fs) :
    leafOf cf ∈ heapify fs :=
  (heapify_perm fs).mem_iff.mpr (List.mem_map_of_mem leafOf h)

/-! ### `buildLoop` lemmas -/

theorem buildLoop_isSome {L : List HuffmanNode} (h : L ≠ []) :
    ∃ T, buildLoop L = some T := by
  induction L using buildLoop.induct with
  | case1 => exact absurd rfl h
  | case2 t => exact ⟨t, by simp [buildLoop]⟩
  | case3 a b rest ih =>
    have hne : insNode (HuffmanNode.mk (a.frequency + b.frequency) none
        (some a) (some b)) rest ≠ [] := by
      intro hcontra
      have := insNode_length (HuffmanNode.mk (a.frequency + b.frequency) none
        (some a) (some b)) rest
      rw [hcontra] at this
      simp at this
    obtain ⟨T, hT⟩ := ih hne
    exact ⟨T, by rw [buildLoop]; exact hT⟩

theorem buildLoop_chars {L : List HuffmanNode} {T : HuffmanNode}
    (h : buildLoop L = some T) : List.Perm T.chars (poolChars L) := by
  induction L using buildLoop.induct with
  | case1 => simp [buildLoop] at h
  | case2 t =>
    simp only [buildLoop, Option.some.injEq] at h
    subst h
    simp [poolChars]
  | case3 a b rest ih =>
    rw [buildLoop] at h
    have hperm := ih h
    refine hperm.trans ?_
    refine (poolChars_perm (insNode_perm _ rest)).trans ?_
    simp only [poolChars, List.map_cons, List.flatten_cons, HuffmanNode.chars,
      List.append_assoc]
    exact List.Perm.refl _

/-! ### Code-list and leaf-depth lemmas -/

theorem keys_codesList : ∀ (t : HuffmanNode) (pre : List Char),
    (codesList t pre).map Prod.fst = t.chars
  | .mk f (some c) l r, pre => by simp [codesList, HuffmanNode.chars]
  | .mk f none (some ln) (some rn), pre => by
    simp [codesList, HuffmanNode.chars, keys_codesList ln, keys_codesList rn]
  | .mk f none (some ln) none, pre => by
    simp [codesList, HuffmanNode.chars, keys_codesList ln]
  | .mk f none none (some rn), pre => by
    simp [codesList, HuffmanNode.chars, keys_codesList rn]
  | .mk f none none none, pre => by simp [codesList, HuffmanNode.chars]

theorem leafDepth_none : ∀ (t : HuffmanNode) (c : Char), c ∉ t.chars →
    leafDepth t c = none
  | .mk f (some c') l r, c => by
    intro h
    simp only [HuffmanNode.chars, List.mem_singleton] at h
    simp only [leafDepth]
    exact if_neg fun hc => h hc.symm
  | .mk f none (some ln) (some rn), c => by
    intro h
    simp only [HuffmanNode.chars, List.mem_append] at h
    push_neg at h
    simp [leafDepth, leafDepth_none ln c h.1, leafDepth_none rn c h.2]
  | .mk f none (some ln) none, c => by
    intro h
    simp only [HuffmanNode.chars, List.mem_append, List.append_nil] at h
    simp [leafDepth, leafDepth_none ln c (by simpa using h)]
  | .mk f none none (some rn), c => by
    intro h
    simp only [HuffmanNode.chars, List.mem_append, List.nil_append] at h
    simp [leafDepth, leafDepth_none rn c (by simpa using h)]
  | .mk f none none none, c => by
    intro h
    simp [leafDepth]

theorem leafDepth_mem : ∀ (t : HuffmanNode) (c : Char) (d : Nat),
    leafDepth t c = some d → c ∈ t.chars := by
  intro t c d h
  by_contra hc
  rw [leafDepth_none t c hc] at h
  exact Option.noConfusion h

theorem leafDepth_isSome_of_mem : ∀ (t : HuffmanNode) (c : Char), c ∈ t.chars →
    ∃ d, leafDepth t c = some d
  | .mk f (some c') l r, c => by
    intro h
    simp only [HuffmanNode.chars, List.mem_singleton] at h
    exact ⟨0, by simp [leafDepth, h]⟩
  | .mk f none (some ln) (some rn), c => by
    intro h
    simp only [HuffmanNode.chars, List.mem_append] at h
    rcases h with h | h
    · obtain ⟨d, hd⟩ := leafDepth_isSome_of_mem ln c h
      exact ⟨d + 1, by simp [leafDepth, hd]⟩
    · cases hln : leafDepth ln c with
      | some dl => exact ⟨dl + 1, by simp [leafDepth, hln]⟩
      | none =>
        obtain ⟨d, hd⟩ := leafDepth_isSome_of_mem rn c h
        exact ⟨d + 1, by simp [leafDepth, hln, hd]⟩
  | .mk f none (some ln) none, c => by
    intro h
    simp only [HuffmanNode.chars, List.append_nil] at h
    obtain ⟨d, hd⟩ := leafDepth_isSome_of_mem ln c h
    exact ⟨d + 1, by simp [leafDepth, hd]⟩
  | .mk f none none (some rn), c => by
    intro h
    simp only [HuffmanNode.chars, List.nil_append] at h
    obtain ⟨d, hd⟩ := leafDepth_isSome_of_mem rn c h
    exact ⟨d + 1, by simp [leafDepth, hd]⟩
  | .mk f none none none, c => by
    intro h
    simp [HuffmanNode.chars] at h

theorem lookupA_codesList_none : ∀ (t : HuffmanNode) (pre : List Char) (c : Char),
    leafDepth t c = none → lookupA (codesList t pre) c = none := by
  intro t pre c h
  rw [lookupA_eq_none_iff, keys_codesList]
  intro hc
  obtain ⟨d, hd⟩ := leafDepth_isSome_of_mem t c hc
  rw [h] at hd
  exact Option.noConfusion hd

theorem lookupA_codesList_some : ∀ (t : HuffmanNode) (pre : List Char) (c : Char)
    (d : Nat), leafDepth t c = some d →
    ∃ p, lookupA (codesList t pre) c = some p ∧ p.length = pre.length + d
  | .mk f (some c') l r, pre, c, d => by
    intro h
    simp only [leafDepth] at h
    by_cases hc : c' = c
    · simp only [if_pos hc, Option.some.injEq] at h
      subst hc
      exact ⟨pre, by simp [codesList, lookupA], by simp [h.symm]⟩
    · simp [if_neg hc] at h
  | .mk f none (some ln) (some rn), pre, c, d => by
    intro h
    simp only [leafDepth] at h
    cases hln : leafDepth ln c with
    | some dl =>
      rw [hln] at h
      simp only [Option.some.injEq] at h
      obtain ⟨p, hp, hlen⟩ := lookupA_codesList_some ln (pre ++ ['0']) c dl hln
      refine ⟨p, ?_, ?_⟩
      · simp only [codesList]
        exact lookupA_append_some _ hp
      · rw [hlen]
        simp only [List.length_append, List.length_singleton]
        omega
    | none =>
      rw [hln] at h
      cases hrn : leafDepth rn c with
      | some dr =>
        rw [hrn] at h
        simp at h
        obtain ⟨p, hp, hlen⟩ := lookupA_codesList_some rn (pre ++ ['1']) c dr hrn
        refine ⟨p, ?_, ?_⟩
        · simp only [codesList]
          rw [lookupA_append_none _ (lookupA_codesList_none ln (pre ++ ['0']) c hln)]
          exact hp
        · rw [hlen, ← h]
          simp
          omega
      | none =>
        rw [hrn] at h
        simp at h
  | .mk f none (some ln) none, pre, c, d => by
    intro h
    simp only [leafDepth] at h
    cases hln : leafDepth ln c with
    | some dl =>
      rw [hln] at h
      simp only [Option.some.injEq] at h
      obtain ⟨p, hp, hlen⟩ := lookupA_codesList_some ln (pre ++ ['0']) c dl hln
      refine ⟨p, ?_, ?_⟩
      · simp only [codesList]
        rw [List.append_nil]
        exact hp
      · rw [hlen]
        simp only [List.length_append, List.length_singleton]
        omega
    | none =>
      rw [hln] at h
      simp at h
  | .mk f none none (some rn), pre, c, d => by
    intro h
    simp only [leafDepth] at h
    cases hrn : leafDepth rn c with
    | some dr =>
      rw [hrn] at h
      simp at h
      obtain ⟨p, hp, hlen⟩ := lookupA_codesList_some rn (pre ++ ['1']) c dr hrn
      refine ⟨p, ?_, ?_⟩
      · simp only [codesList]
        rw [List.nil_append]
        exact hp
      · rw [hlen]
        simp only [List.length_append, List.length_singleton]
        omega
    | none =>
      rw [hrn] at h
      simp at h
  | .mk f none none none, pre, c, d => by
    intro h
    simp [leafDepth] at h

theorem codesList_shape : ∀ (t : HuffmanNode) (pre : List Char) (c : Char)
    (p : List Char), (c, p) ∈ codesList t pre → ∃ s, p = pre ++ s
  | .mk f (some c') l r, pre, c, p => by
    intro h
    simp only [codesList, List.mem_singleton, Prod.mk.injEq] at h
    exact ⟨[], by simp [h.2.symm]⟩
  | .mk f none (some ln) (some rn), pre, c, p => by
    intro h
    simp only [codesList, List.mem_append] at h
    rcases h with h | h
    · obtain ⟨s, hs⟩ := codesList_shape ln (pre ++ ['0']) c p h
      exact ⟨'0' :: s, by simp [hs]⟩
    · obtain ⟨s, hs⟩ := codesList_shape rn (pre ++ ['1']) c p h
      exact ⟨'1' :: s, by simp [hs]⟩
  | .mk f none (some ln) none, pre, c, p => by
    intro h
    simp only [codesList, List.append_nil] at h
    obtain ⟨s, hs⟩ := codesList_shape ln (pre ++ ['0']) c p h
    exact ⟨'0' :: s, by simp [hs]⟩
  | .mk f none none (some rn), pre, c, p => by
    intro h
    simp only [codesList, List.nil_append] at h
    obtain ⟨s, hs⟩ := codesList_shape rn (pre ++ ['1']) c p h
    exact ⟨'1' :: s, by simp [hs]⟩
  | .mk f none none none, pre, c, p => by
    intro h
    simp [codesList] at h

/-- Mutual non-prefixness of two code-table entries. -/
def NoPre (e1 e2 : Char × List Char) : Prop :=
  ¬ (e1.2 <+: e2.2) ∧ ¬ (e2.2 <+: e1.2)

theorem noPre_symm : Symmetric NoPre := fun _ _ h => ⟨h.2, h.1⟩

theorem no_pre_cross {pre s1 s2 : List Char} {b1 b2 : Char} (hb : b1 ≠ b2) :
    ¬ ((pre ++ b1 :: s1) <+: (pre ++ b2 :: s2)) := by
  rintro ⟨w, hw⟩
  rw [List.append_assoc] at hw
  have h2 := List.append_cancel_left hw
  rw [List.cons_append] at h2
  exact hb (List.cons.injEq .. ▸ h2).1

theorem codesList_pairwise : ∀ (t : HuffmanNode) (pre : List Char),
    (codesList t pre).Pairwise NoPre
  | .mk f (some c) l r, pre => by simp [codesList]
  | .mk f none (some ln) (some rn), pre => by
    simp only [codesList]
    rw [List.pairwise_append]
    refine ⟨codesList_pairwise ln _, codesList_pairwise rn _, ?_⟩
    intro e1 h1 e2 h2
    obtain ⟨s1, hs1⟩ := codesList_shape ln (pre ++ ['0']) e1.1 e1.2 (by simpa using h1)
    obtain ⟨s2, hs2⟩ := codesList_shape rn (pre ++ ['1']) e2.1 e2.2 (by simpa using h2)
    rw [List.append_assoc] at hs1 hs2
    simp only [List.singleton_append] at hs1 hs2
    constructor
    · rw [hs1, hs2]
      exact no_pre_cross (by decide)
    · rw [hs1, hs2]
      exact no_pre_cross (by decide)
  | .mk f none (some ln) none, pre => by
    simp only [codesList, List.append_nil]
    exact codesList_pairwise ln _
  | .mk f none none (some rn), pre => by
    simp only [codesList, List.nil_append]
    exact codesList_pairwise rn _
  | .mk f none none none, pre => by simp [codesList]

theorem build_codes_eq : ∀ (t : HuffmanNode) (pre : List Char)
    (acc : List (Char × List Char)), t.chars.Nodup →
    (∀ c ∈ t.chars, c ∉ acc.map Prod.fst) →
    build_codes t pre acc = acc ++ codesList t pre
  | .mk f (some c) l r, pre, acc => by
    intro hnd hdisj
    simp only [build_codes, codesList]
    exact insertA_of_not_mem pre (hdisj c (by simp [HuffmanNode.chars]))
  | .mk f none (some ln) (some rn), pre, acc => by
    intro hnd hdisj
    simp only [HuffmanNode.chars, List.nodup_append] at hnd
    obtain ⟨ndl, ndr, disj⟩ := hnd
    have hdl : ∀ c ∈ ln.chars, c ∉ acc.map Prod.fst := fun c hc =>
      hdisj c (by simp [HuffmanNode.chars, hc])
    have hdr : ∀ c ∈ rn.chars, c ∉ acc.map Prod.fst := fun c hc =>
      hdisj c (by simp [HuffmanNode.chars, hc])
    simp only [build_codes]
    rw [build_codes_eq ln (pre ++ ['0']) acc ndl hdl]
    rw [build_codes_eq rn (pre ++ ['1']) _ ndr ?_]
    · simp [codesList, List.append_assoc]
    · intro c hc
      rw [List.map_append, keys_codesList]
      intro hmem
      rcases List.mem_append.mp hmem with h | h
      · exact hdr c hc h
      · exact disj h hc
  | .mk f none (some ln) none, pre, acc => by
    intro hnd hdisj
    simp only [HuffmanNode.chars, List.append_nil] at hnd hdisj
    simp only [build_codes, codesList, List.append_nil]
    exact build_codes_eq ln (pre ++ ['0']) acc hnd hdisj
  | .mk f none none (some rn), pre, acc => by
    intro hnd hdisj
    simp only [HuffmanNode.chars, List.nil_append] at hnd hdisj
    simp only [build_codes, codesList, List.nil_append]
    exact build_codes_eq rn (pre ++ ['1']) acc hnd hdisj
  | .mk f none none none, pre, acc => by
    intro hnd hdisj
    simp [build_codes, codesList]

/-! ### Encoder and compression-path lemmas -/

theorem encodeAll_some (input : List Char) (codes : List (Char × List Char))
    (h : ∀ c ∈ input, (lookupA codes c).isSome) :
    encodeAll input codes = some (input.filterMap (lookupA codes)).flatten := by
  induction input with
  | nil => rfl
  | cons c rest ih =>
    have hc := h c (List.mem_cons_self c rest)
    obtain ⟨p, hp⟩ := Option.isSome_iff_exists.mp hc
    have hrest := ih fun x hx => h x (List.mem_cons_of_mem c hx)
    simp only [encodeAll, hp, hrest, List.filterMap_cons, List.flatten_cons]

theorem compress_inv {input s : List Char} {C : List (Char × List Char)}
    (h : huffman_compress input = some (s, C)) :
    ∃ root, build_huffman_tree (countFreq input) = some root ∧
      C = build_codes root [] [] ∧ encodeAll input C = some s := by
  unfold huffman_compress at h
  cases hb : build_huffman_tree (countFreq input) with
  | none => rw [hb] at h; exact Option.noConfusion h
  | some root =>
    rw [hb] at h
    simp only at h
    cases he : encodeAll input (build_codes root [] []) with
    | none => rw [he] at h; exact Option.noConfusion h
    | some s' =>
      rw [he] at h
      simp only [Option.some.injEq, Prod.mk.injEq] at h
      refine ⟨root, rfl, h.2.symm, ?_⟩
      rw [← h.2, he, h.1]

theorem root_chars_perm {fs : List (Char × Nat)} {root : HuffmanNode}
    (h : build_huffman_tree fs = some root) :
    List.Perm root.chars (fs.map Prod.fst) := by
  unfold build_huffman_tree at h
  exact (buildLoop_chars h).trans (heapify_poolChars fs)

theorem root_chars_nodup {input : List Char} {root : HuffmanNode}
    (h : build_huffman_tree (countFreq input) = some root) : root.chars.Nodup :=
  (root_chars_perm h).nodup_iff.mpr (nodup_keys_countFreq input)

theorem codes_eq_codesList {input : List Char} {root : HuffmanNode}
    (h : build_huffman_tree (countFreq input) = some root) :
    build_codes root [] [] = codesList root [] := by
  have := build_codes_eq root [] [] (root_chars_nodup h) (by simp)
  simpa using this

theorem mem_root_chars {input : List Char} {root : HuffmanNode}
    (h : build_huffman_tree (countFreq input) = some root) {c : Char}
    (hc : c ∈ input) : c ∈ root.chars :=
  (root_chars_perm h).mem_iff.mpr (mem_keys_countFreq.mpr hc)

theorem lookup_codes_isSome {input : List Char} {root : HuffmanNode}
    (h : build_huffman_tree (countFreq input) = some root) {c : Char}
    (hc : c ∈ input) : (lookupA (build_codes root [] []) c).isSome := by
  rw [codes_eq_codesList h]
  obtain ⟨d, hd⟩ := leafDepth_isSome_of_mem root c (mem_root_chars h hc)
  obtain ⟨p, hp, _⟩ := lookupA_codesList_some root [] c d hd
  rw [hp]
  rfl

theorem countFreq_ne_nil {input : List Char} (h : input ≠ []) :
    countFreq input ≠ [] := by
  intro hc
  cases input with
  | nil => exact h rfl
  | cons c rest =>
    have : c ∈ (countFreq (c :: rest)).map Prod.fst :=
      mem_keys_countFreq.mpr (List.mem_cons_self c rest)
    rw [hc] at this
    simp at this

theorem compress_some_of_ne_nil {input : List Char} (h : input ≠ []) :
    ∃ s C, huffman_compress input = some (s, C) := by
  have hfs := countFreq_ne_nil h
  have hheap : heapify (countFreq input) ≠ [] := by
    intro hc
    have := heapify_length (countFreq input)
    rw [hc] at this
    cases hfs (List.length_eq_zero.mp this.symm)
  obtain ⟨root, hroot⟩ := buildLoop_isSome hheap
  have hb : build_huffman_tree (countFreq input) = some root := hroot
  have henc : ∀ c ∈ input, (lookupA (build_codes root [] []) c).isSome :=
    fun c hc => lookup_codes_isSome hb hc
  refine ⟨(input.filterMap (lookupA (build_codes root [] []))).flatten,
    build_codes root [] [], ?_⟩
  unfold huffman_compress
  rw [hb]
  simp only [encodeAll_some input _ henc]

/-! ### Decoder lemmas -/

theorem lookupA_revMap (codes : List (Char × List Char)) (k : List Char) :
    lookupA (revMap codes) k =
      (codes.reverse.find? (fun e => decide (e.2 = k))).map Prod.fst := by
  suffices h : ∀ acc, lookupA (codes.foldl (fun m e => insertA m e.2 e.1) acc) k =
      match codes.reverse.find? (fun e => decide (e.2 = k)) with
      | some e => some e.1
      | none => lookupA acc k by
    rw [revMap, h []]
    cases hf : codes.reverse.find? (fun e => decide (e.2 = k)) <;> simp [lookupA]
  induction codes with
  | nil => intro acc; simp
  | cons e cs ih =>
    intro acc
    simp only [List.foldl_cons, List.reverse_cons, List.find?_append]
    rw [ih (insertA acc e.2 e.1)]
    cases hf : cs.reverse.find? (fun x => decide (x.2 = k)) with
    | some e' => simp [Option.or]
    | none =>
      simp only [Option.or]
      by_cases hpe : e.2 = k
      · simp [List.find?, hpe, lookupA_insertA]
      · simp [List.find?, hpe, lookupA_insertA]

theorem decompress_encode_single {codes : List (Char × List Char)} :
    ∀ (input s : List Char),
    (∀ c ∈ input, ∃ bc, lookupA codes c = some [bc] ∧
      lookupA (revMap codes) [bc] = some c) →
    encodeAll input codes = some s →
    huffman_decompress s codes = input := by
  intro input
  induction input with
  | nil =>
    intro s h he
    simp only [encodeAll, Option.some.injEq] at he
    subst he
    rfl
  | cons c rest ih =>
    intro s h he
    obtain ⟨bc, hbc, hrev⟩ := h c (List.mem_cons_self c rest)
    simp only [encodeAll, hbc] at he
    cases her : encodeAll rest codes with
    | none => rw [her] at he; exact Option.noConfusion he
    | some r =>
      rw [her] at he
      simp only [Option.some.injEq] at he
      subst he
      have hr := ih r (fun x hx => h x (List.mem_cons_of_mem c hx)) her
      unfold huffman_decompress at hr ⊢
      simp only [List.singleton_append, List.filterMap_cons, hrev, hr]

/-! ### Depth monotonicity of the merge process

For every tree `u` of the current heap, all leaves of `u` sit at a common
offset `D(u)` below the final root (their depth in the final tree minus their
depth inside `u`).  The three invariants proven by `pool_main`:
* `Drel T u u` — the offset is well defined for each heap tree;
* heap order implies `D(u₁) ≥ D(u₂) ≥ …` (earlier = lower frequency = deeper);
* a bounded converse: `D(u) ≤ D(v) + 1` for `u` before `v` whenever
  `v.frequency` is at most the sum of the two smallest heap frequencies. -/

/-- Leaves of `u` end up at least as deep (relative to their in-tree depth)
as leaves of `v`, measured in the final tree `T`. -/
def Drel (T u v : HuffmanNode) : Prop :=
  ∀ x y dx dy Dx Dy, leafDepth u x = some dx → leafDepth v y = some dy →
    leafDepth T x = some Dx → leafDepth T y = some Dy → Dy + dx ≤ Dx + dy

/-- Leaves of `u` end up at most one level deeper (relative to their in-tree
depth) than leaves of `v`, measured in the final tree `T`. -/
def Erel (T u v : HuffmanNode) : Prop :=
  ∀ x y dx dy Dx Dy, leafDepth u x = some dx → leafDepth v y = some dy →
    leafDepth T x = some Dx → leafDepth T y = some Dy → Dx + dy ≤ Dy + dx + 1

/-- Sum of the frequencies of the first two heap nodes. -/
def headSum : List HuffmanNode → Nat
  | a :: b :: _ => a.frequency + b.frequency
  | _ => 0

theorem leafDepth_merge_left {a : HuffmanNode} (b : HuffmanNode) {x : Char}
    {dx : Nat} (h : leafDepth a x = some dx) (fab : Nat) :
    leafDepth (HuffmanNode.mk fab none (some a) (some b)) x = some (dx + 1) := by
  simp [leafDepth, h]

theorem leafDepth_merge_right (a : HuffmanNode) {b : HuffmanNode} {y : Char}
    {dy : Nat} (hna : leafDepth a y = none) (h : leafDepth b y = some dy)
    (fab : Nat) :
    leafDepth (HuffmanNode.mk fab none (some a) (some b)) y = some (dy + 1) := by
  simp [leafDepth, hna, h]

theorem pool_main : ∀ (n : Nat) (L : List HuffmanNode) (T : HuffmanNode),
    L.length = n → L.Pairwise nodeLe → (poolChars L).Nodup →
    buildLoop L = some T →
    (∀ u ∈ L, Drel T u u) ∧ L.Pairwise (Drel T) ∧
      (∀ u v, Before u v L → v.frequency ≤ headSum L → Erel T u v) := by
  intro n
  induction n with
  | zero =>
    intro L T hlen _ _ hT
    rw [List.length_eq_zero.mp hlen] at hT
    simp [buildLoop] at hT
  | succ n ih =>
    intro L T hlen hsort hnd hT
    cases L with
    | nil => simp [buildLoop] at hT
    | cons a L' =>
      cases L' with
      | nil =>
        -- singleton heap: the final tree is the single node
        have ht : T = a := by
          have := hT
          simp only [buildLoop, Option.some.injEq] at this
          exact this.symm
        subst ht
        refine ⟨?_, by simp, ?_⟩
        · intro u hu
          rw [List.mem_singleton] at hu
          subst hu
          intro x y dx dy Dx Dy hx hy hX hY
          rw [hx] at hX
          rw [hy] at hY
          cases hX
          cases hY
          omega
        · intro u v hb _
          obtain ⟨A, B, C, hABC⟩ := hb
          have hlen2 := congrArg List.length hABC
          simp [List.length_append] at hlen2
          omega
      | cons b rest =>
        -- merge step
        rw [buildLoop] at hT
        set w : HuffmanNode :=
          HuffmanNode.mk (a.frequency + b.frequency) none (some a) (some b) with hw
        set K : List HuffmanNode := insNode w rest with hK
        -- order facts
        have hab : a.frequency ≤ b.frequency :=
          List.rel_of_pairwise_cons hsort (List.mem_cons_self b rest)
        have ha_rest : ∀ z ∈ rest, a.frequency ≤ z.frequency := fun z hz =>
          List.rel_of_pairwise_cons hsort (List.mem_cons_of_mem b hz)
        have hb_rest : ∀ z ∈ rest, b.frequency ≤ z.frequency := fun z hz =>
          List.rel_of_pairwise_cons hsort.tail hz
        have hrest_sort : rest.Pairwise nodeLe := hsort.tail.tail
        -- character disjointness
        have hpcL : poolChars (a :: b :: rest) =
            a.chars ++ (b.chars ++ poolChars rest) := by
          simp [poolChars]
        rw [hpcL] at hnd
        rw [List.nodup_append] at hnd
        obtain ⟨nda, hnd2, disj1⟩ := hnd
        have disj_ba : ∀ y ∈ b.chars, y ∉ a.chars := fun y hy ha =>
          disj1 ha (List.mem_append_left _ hy)
        have hchars_w : w.chars = a.chars ++ b.chars := rfl
        -- the depth-lift facts
        have F1 : ∀ {x : Char} {dx : Nat}, leafDepth a x = some dx →
            leafDepth w x = some (dx + 1) := fun h =>
          leafDepth_merge_left b h _
        have F2 : ∀ {y : Char} {dy : Nat}, leafDepth b y = some dy →
            leafDepth w y = some (dy + 1) := fun {y} {dy} h => by
          have hya : y ∉ a.chars := disj_ba y (leafDepth_mem b y dy h)
          exact leafDepth_merge_right a (leafDepth_none a y hya) h _
        -- invariants of the reduced heap
        have hK_len : K.length = n := by
          rw [hK, insNode_length]
          simpa using hlen
        have hK_sort : K.Pairwise nodeLe := insNode_sorted hrest_sort
        have hK_nd : (poolChars K).Nodup := by
          have hperm : List.Perm (poolChars K) (poolChars (w :: rest)) :=
            poolChars_perm (insNode_perm w rest)
          have heq : poolChars (w :: rest) =
              a.chars ++ (b.chars ++ poolChars rest) := by
            simp [poolChars, hchars_w]
          refine hperm.nodup_iff.mpr ?_
          rw [heq, List.nodup_append]
          exact ⟨nda, hnd2, disj1⟩
        obtain ⟨R', P', Q'⟩ := ih K T hK_len hK_sort hK_nd hT
        have hw_mem : w ∈ K := insNode_mem.mpr (Or.inl rfl)
        have R'w : Drel T w w := R' w hw_mem
        obtain ⟨l₁, l₂, hrest_eq, hK_eq, hl₁, hl₂⟩ := insNode_split (x := w) hrest_sort
        have hKsplit : K = l₁ ++ w :: l₂ := hK_eq
        have hP'split := hKsplit ▸ P'
        rw [List.pairwise_append] at hP'split
        obtain ⟨P1, P2, Pcross⟩ := hP'split
        -- position of a tail tree relative to w inside K
        have hmem_l₁ : ∀ {v : HuffmanNode}, v ∈ rest →
            v.frequency ≤ w.frequency → v ∈ l₁ := by
          intro v hv hvw
          rw [hrest_eq] at hv
          rcases List.mem_append.mp hv with h | h
          · exact h
          · exact absurd hvw (not_le.mpr (hl₂ v h))
        have hmem_l₂ : ∀ {v : HuffmanNode}, v ∈ rest →
            w.frequency < v.frequency → v ∈ l₂ := by
          intro v hv hvw
          rw [hrest_eq] at hv
          rcases List.mem_append.mp hv with h | h
          · exact absurd (hl₁ v h) (not_le.mpr hvw)
          · exact h
        have hDvw : ∀ {v : HuffmanNode}, v ∈ l₁ → Drel T v w := fun hv =>
          Pcross _ hv w (List.mem_cons_self w l₂)
        have hDwv : ∀ {v : HuffmanNode}, v ∈ l₂ → Drel T w v := fun hv =>
          List.rel_of_pairwise_cons P2 hv
        -- the Q-side bound on the new head sum
        have hHS : rest ≠ [] → w.frequency ≤ headSum K := by
          intro hne
          have h2 : 2 ≤ K.length := by
            rw [hK, insNode_length]
            cases rest with
            | nil => exact absurd rfl hne
            | cons _ _ => simp
          cases hKc : K with
          | nil => rw [hKc] at h2; simp at h2
          | cons k0 K1 =>
            cases K1 with
            | nil => rw [hKc] at h2; simp at h2
            | cons k1 K2 =>
              have hk0 : k0 = w ∨ k0 ∈ rest := by
                have : k0 ∈ K := by rw [hKc]; exact List.mem_cons_self k0 _
                rw [hK] at this
                exact insNode_mem.mp this
              have hk1 : k1 = w ∨ k1 ∈ rest := by
                have : k1 ∈ K := by
                  rw [hKc]
                  exact List.mem_cons_of_mem k0 (List.mem_cons_self k1 K2)
                rw [hK] at this
                exact insNode_mem.mp this
              have hhs : headSum (k0 :: k1 :: K2) = k0.frequency + k1.frequency := rfl
              rw [hhs]
              have hwf : w.frequency = a.frequency + b.frequency := rfl
              rcases hk0 with rfl | hk0
              · omega
              · rcases hk1 with rfl | hk1
                · omega
                · have h1 := hb_rest k0 hk0
                  have h2 := hb_rest k1 hk1
                  omega
        -- the before-w decomposition for elements of l₁
        have hBefore_w : ∀ {v : HuffmanNode}, v ∈ l₁ → Before v w K := by
          intro v hv
          obtain ⟨P, Q, hPQ⟩ := List.append_of_mem hv
          exact ⟨P, Q, l₂, by rw [hKsplit, hPQ]⟩
        -- the Erel bound for tail trees not past w
        have hErel_vw : ∀ {v : HuffmanNode}, v ∈ rest →
            v.frequency ≤ w.frequency → Drel T v w := by
          intro v hv hvw
          exact hDvw (hmem_l₁ hv hvw)
        -- conjunct 1: Drel refl for every heap tree
        have hR : ∀ u ∈ (a :: b :: rest), Drel T u u := by
          intro u hu
          rcases List.mem_cons.mp hu with rfl | hu
          · intro x y dx dy Dx Dy hx hy hX hY
            have := R'w x y (dx + 1) (dy + 1) Dx Dy (F1 hx) (F1 hy) hX hY
            omega
          · rcases List.mem_cons.mp hu with rfl | hu
            · intro x y dx dy Dx Dy hx hy hX hY
              have := R'w x y (dx + 1) (dy + 1) Dx Dy (F2 hx) (F2 hy) hX hY
              omega
            · exact R' u (insNode_mem.mpr (Or.inr hu))
        -- Drel T a z and Drel T b z for tail trees z
        have hDaz : ∀ z ∈ rest, ∀ {x : Char} {dx : Nat},
            (leafDepth a x = some dx ∨ leafDepth b x = some dx) →
            ∀ y dy Dx Dy, leafDepth z y = some dy →
            leafDepth T x = some Dx → leafDepth T y = some Dy →
            Dy + dx ≤ Dx + dy := by
          intro z hz x dx hx y dy Dx Dy hy hX hY
          have hxw : leafDepth w x = some (dx + 1) := by
            rcases hx with hx | hx
            · exact F1 hx
            · exact F2 hx
          by_cases hzw : z.frequency ≤ w.frequency
          · have herel : Erel T z w := by
              refine Q' z w (hBefore_w (hmem_l₁ hz hzw)) ?_
              exact hHS (List.ne_nil_of_mem hz)
            have := herel y x dy (dx + 1) Dy Dx hy hxw hY hX
            omega
          · have hdrel : Drel T w z := hDwv (hmem_l₂ hz (not_le.mp hzw))
            have := hdrel x y (dx + 1) dy Dx Dy hxw hy hX hY
            omega
        -- conjunct 2: pairwise Drel along the heap
        have hP : (a :: b :: rest).Pairwise (Drel T) := by
          rw [List.pairwise_cons]
          constructor
          · intro z hz
            rcases List.mem_cons.mp hz with rfl | hz
            · intro x y dx dy Dx Dy hx hy hX hY
              have := R'w x y (dx + 1) (dy + 1) Dx Dy (F1 hx) (F2 hy) hX hY
              omega
            · intro x y dx dy Dx Dy hx hy hX hY
              exact hDaz z hz (Or.inl hx) y dy Dx Dy hy hX hY
          · rw [List.pairwise_cons]
            constructor
            · intro z hz x y dx dy Dx Dy hx hy hX hY
              exact hDaz z hz (Or.inr hx) y dy Dx Dy hy hX hY
            · have hsub : List.Sublist rest K := by
                rw [hKsplit, hrest_eq]
                exact (List.sublist_cons_self w l₂).append_left l₁
              exact P'.sublist hsub
        -- conjunct 3: the bounded converse
        have hQ : ∀ u v, Before u v (a :: b :: rest) →
            v.frequency ≤ headSum (a :: b :: rest) → Erel T u v := by
          intro u v hb hcond
          have hcond' : v.frequency ≤ w.frequency := hcond
          obtain ⟨A, B, C, hABC⟩ := hb
          cases A with
          | nil =>
            simp only [List.nil_append, List.cons_append] at hABC
            obtain ⟨hau, htail⟩ := List.cons_eq_cons.mp hABC
            subst hau
            cases B with
            | nil =>
              simp only [List.nil_append] at htail
              obtain ⟨hbv, -⟩ := List.cons_eq_cons.mp htail
              subst hbv
              intro x y dx dy Dx Dy hx hy hX hY
              have := R'w y x (dy + 1) (dx + 1) Dy Dx (F2 hy) (F1 hx) hY hX
              omega
            | cons b0 B' =>
              simp only [List.cons_append] at htail
              obtain ⟨-, htail2⟩ := List.cons_eq_cons.mp htail
              have hvrest : v ∈ rest := by
                rw [htail2]
                exact List.mem_append.mpr (Or.inr (List.mem_cons_self v C))
              have hdrel : Drel T v w := hErel_vw hvrest hcond'
              intro x y dx dy Dx Dy hx hy hX hY
              have := hdrel y x dy (dx + 1) Dy Dx hy (F1 hx) hY hX
              omega
          | cons a0 A' =>
            simp only [List.cons_append] at hABC
            obtain ⟨-, htail⟩ := List.cons_eq_cons.mp hABC
            cases A' with
            | nil =>
              simp only [List.nil_append, List.cons_append] at htail
              obtain ⟨hbu, htail2⟩ := List.cons_eq_cons.mp htail
              subst hbu
              have hvrest : v ∈ rest := by
                rw [htail2]
                exact List.mem_append.mpr (Or.inr (List.mem_cons_self v C))
              have hdrel : Drel T v w := hErel_vw hvrest hcond'
              intro x y dx dy Dx Dy hx hy hX hY
              have := hdrel y x dy (dx + 1) Dy Dx hy (F2 hx) hY hX
              omega
            | cons a1 A'' =>
              simp only [List.cons_append] at htail
              obtain ⟨-, htail2⟩ := List.cons_eq_cons.mp htail
              have hbefore : Before u v rest := ⟨A'', B, C, htail2⟩
              have hrest_ne : rest ≠ [] := by
                rw [htail2]
                simp
              refine Q' u v (before_insNode hbefore) ?_
              exact le_trans hcond' (hHS hrest_ne)
        exact ⟨hR, hP, hQ⟩

/-! ### The decoder the specification describes -/

/-- Whether `p` is a prefix of `bits` (boolean helper for the spec decoder). -/
def isPre : List Char → List Char → Bool
  | [], _ => true
  | _ :: _, [] => false
  | a :: s, b :: t => a = b && isPre s t

/-- One fold step of `bestMatch`: keep the longer of the current best match
and the candidate entry, considering only non-empty codes that are prefixes
of the remaining bit-string. -/
def bmStep (bits : List Char) (best : Option (Char × List Char))
    (e : Char × List Char) : Option (Char × List Char) :=
  if isPre e.2 bits && decide (0 < e.2.length) then
    match best with
    | none => some e
    | some b => if b.2.length < e.2.length then some e else some b
  else best

/-- Modelled from the spec: the longest code of the table that is a prefix of
the remaining bit-string (§4.5; codes are non-empty bit-strings by the
CodeTable invariant of §3). -/
def bestMatch (codes : List (Char × List Char)) (bits : List Char) :
    Option (Char × List Char) :=
  codes.foldl (bmStep bits) none

theorem bmStep_pos {bits : List Char} {best : Option (Char × List Char)}
    (hbest : ∀ e, best = some e → 0 < e.2.length) :
    ∀ (c : Char × List Char) (e : Char × List Char),
      bmStep bits best c = some e → 0 < e.2.length := by
  intro c e h
  unfold bmStep at h
  split at h
  · rename_i hc
    rw [Bool.and_eq_true, decide_eq_true_eq] at hc
    cases best with
    | none =>
      simp only [Option.some.injEq] at h
      subst h
      exact hc.2
    | some b =>
      simp only at h
      split at h <;> simp only [Option.some.injEq] at h
      · subst h; exact hc.2
      · subst h; exact hbest b rfl
  · exact hbest e h

theorem bestMatch_pos (codes : List (Char × List Char)) (bits : List Char) :
    ∀ e, bestMatch codes bits = some e → 0 < e.2.length := by
  suffices h : ∀ (best : Option (Char × List Char)),
      (∀ e, best = some e → 0 < e.2.length) →
      ∀ e, codes.foldl (bmStep bits) best = some e → 0 < e.2.length from
    h none (by intro e h; exact Option.noConfusion h)
  induction codes with
  | nil => exact fun best hbest => hbest
  | cons c cs ih =>
    intro best hbest e h
    rw [List.foldl_cons] at h
    exact ih (bmStep bits best c) (fun e' he' => bmStep_pos hbest c e' he') e h

/-- Modelled from the spec (§4.5): greedy variable-length decoding — repeatedly
match the longest code that is a prefix of the remaining bit-string, emit its
symbol and advance past the matched prefix; report failure (UnmatchedBits)
when no code matches; stop when the bit-string is exhausted. -/
def greedyDecode : List Char → List (Char × List Char) → Option (List Char)
  | [], _ => some []
  | b :: bs, codes =>
    match hm : bestMatch codes (b :: bs) with
    | none => none
    | some e => (greedyDecode ((b :: bs).drop e.2.length) codes).map (e.1 :: ·)
termination_by bits _ => bits.length
decreasing_by
  have hpos := bestMatch_pos codes (b :: bs) e hm
  simp only [List.length_drop, List.length_cons]
  omega

/-! ### The two-distinct-symbols case -/

theorem nodup_two_mem {l : List Char} (hnd : l.Nodup) {a b : Char} (hab : a ≠ b)
    (ha : a ∈ l) (hb : b ∈ l) (hsub : ∀ c ∈ l, c = a ∨ c = b) :
    l = [a, b] ∨ l = [b, a] := by
  cases l with
  | nil => cases ha
  | cons x t =>
    cases t with
    | nil =>
      rw [List.mem_singleton] at ha hb
      exact absurd (ha.trans hb.symm) hab
    | cons y t2 =>
      rw [List.nodup_cons] at hnd
      obtain ⟨hx_nmem, hnd2⟩ := hnd
      rw [List.nodup_cons] at hnd2
      obtain ⟨hy_nmem, -⟩ := hnd2
      have hxy : x ≠ y := fun h => hx_nmem (h ▸ List.mem_cons_self y t2)
      have hx : x = a ∨ x = b := hsub x (List.mem_cons_self x _)
      have hy : y = a ∨ y = b :=
        hsub y (List.mem_cons_of_mem x (List.mem_cons_self y t2))
      have hcases : (x = a ∧ y = b) ∨ (x = b ∧ y = a) := by
        rcases hx with hx | hx
        · rcases hy with hy | hy
          · exact absurd (hx.trans hy.symm) hxy
          · exact Or.inl ⟨hx, hy⟩
        · rcases hy with hy | hy
          · exact Or.inr ⟨hx, hy⟩
          · exact absurd (hx.trans hy.symm) hxy
      have ht2 : t2 = [] := by
        rw [List.eq_nil_iff_forall_not_mem]
        intro z hz
        have hzxy : z = x ∨ z = y := by
          rcases hsub z (List.mem_cons_of_mem x (List.mem_cons_of_mem y hz))
            with hza | hzb
          · rcases hcases with ⟨hxa, hyb⟩ | ⟨hxb, hya⟩
            · exact Or.inl (hza.trans hxa.symm)
            · exact Or.inr (hza.trans hya.symm)
          · rcases hcases with ⟨hxa, hyb⟩ | ⟨hxb, hya⟩
            · exact Or.inr (hzb.trans hyb.symm)
            · exact Or.inl (hzb.trans hxb.symm)
        rcases hzxy with rfl | rfl
        · exact hx_nmem (List.mem_cons_of_mem y hz)
        · exact hy_nmem hz
      subst ht2
      rcases hcases with ⟨hxa, hyb⟩ | ⟨hxb, hya⟩
      · exact Or.inl (by rw [hxa, hyb])
      · exact Or.inr (by rw [hxb, hya])

theorem map_fst_pair {l : List (Char × Nat)} {a b : Char}
    (h : l.map Prod.fst = [a, b]) : ∃ na nb, l = [(a, na), (b, nb)] := by
  cases l with
  | nil => simp at h
  | cons e t =>
    cases t with
    | nil => simp at h
    | cons e2 t2 =>
      cases t2 with
      | nil =>
        simp only [List.map_cons, List.map_nil, List.cons.injEq, and_true] at h
        obtain ⟨h1, h2⟩ := h
        exact ⟨e.2, e2.2, by rw [← h1, ← h2]⟩
      | cons _ _ => simp at h

theorem compress_two_core {u v : Char} {nu nv : Nat} {input : List Char}
    (huv : u ≠ v)
    (hbt : build_huffman_tree (countFreq input) =
      some (HuffmanNode.mk (nu + nv) none (some (leafOf (u, nu)))
        (some (leafOf (v, nv)))))
    (hmem : ∀ c ∈ input, c = u ∨ c = v) :
    ∃ s C, huffman_compress input = some (s, C) ∧
      (∀ c pc, lookupA C c = some pc → pc.length = 1) ∧
      huffman_decompress s C = input := by
  set T := HuffmanNode.mk (nu + nv) none (some (leafOf (u, nu)))
    (some (leafOf (v, nv))) with hT
  have hcodes : build_codes T [] [] = [(u, ['0']), (v, ['1'])] := by
    simp [hT, build_codes, leafOf, insertA, huv]
  set C : List (Char × List Char) := [(u, ['0']), (v, ['1'])] with hC
  have hlk_u : lookupA C u = some ['0'] := by simp [hC, lookupA]
  have hlk_v : lookupA C v = some ['1'] := by simp [hC, lookupA, huv]
  have hrev : revMap C = [(['0'], u), (['1'], v)] := by
    simp +decide [hC, revMap, insertA]
  have hsingle : ∀ c ∈ input, ∃ bc, lookupA C c = some [bc] ∧
      lookupA (revMap C) [bc] = some c := by
    intro c hc
    rcases hmem c hc with rfl | rfl
    · exact ⟨'0', hlk_u, by rw [hrev]; simp [lookupA]⟩
    · exact ⟨'1', hlk_v, by rw [hrev]; simp +decide [lookupA]⟩
  have hiss : ∀ c ∈ input, (lookupA C c).isSome := by
    intro c hc
    obtain ⟨bc, h1, -⟩ := hsingle c hc
    rw [h1]
    rfl
  have henc := encodeAll_some input C hiss
  refine ⟨(input.filterMap (lookupA C)).flatten, C, ?_, ?_, ?_⟩
  · unfold huffman_compress
    rw [hbt]
    simp only [← hT, hcodes, ← hC, henc]
  · intro c pc h
    by_cases hcu : u = c
    · rw [hC] at h
      simp only [lookupA, if_pos hcu, Option.some.injEq] at h
      rw [← h]
      rfl
    · by_cases hcv : v = c
      · rw [hC] at h
        simp only [lookupA, if_neg hcu, if_pos hcv, Option.some.injEq] at h
        rw [← h]
        rfl
      · rw [hC] at h
        simp only [lookupA, if_neg hcu, if_neg hcv] at h
        exact Option.noConfusion h
  · exact decompress_encode_single input _ hsingle henc

theorem compress_two_pairs {p q : Char} {np nq : Nat} {input : List Char}
    (hpq : p ≠ q) (hcf : countFreq input = [(p, np), (q, nq)])
    (hmem : ∀ c ∈ input, c = p ∨ c = q) :
    ∃ s C, huffman_compress input = some (s, C) ∧
      (∀ c pc, lookupA C c = some pc → pc.length = 1) ∧
      huffman_decompress s C = input := by
  by_cases hle : np ≤ nq
  · have hbt : build_huffman_tree (countFreq input) =
        some (HuffmanNode.mk (np + nq) none (some (leafOf (p, np)))
          (some (leafOf (q, nq)))) := by
      rw [hcf]
      simp [build_huffman_tree, heapify, insNode, buildLoop, leafOf,
        HuffmanNode.frequency, hle]
    exact compress_two_core hpq hbt hmem
  · push_neg at hle
    have hbt : build_huffman_tree (countFreq input) =
        some (HuffmanNode.mk (nq + np) none (some (leafOf (q, nq)))
          (some (leafOf (p, np)))) := by
      rw [hcf]
      simp [build_huffman_tree, heapify, insNode, buildLoop, leafOf,
        HuffmanNode.frequency, not_le.mpr hle]
    have hmem' : ∀ c ∈ input, c = q ∨ c = p := fun c hc => (hmem c hc).symm
    exact compress_two_core (Ne.symm hpq) hbt hmem'

/-! ### The claims -/

/-- C1.  The round-trip law fails on the code: for the non-empty input
`"aaaa"`, `huffman_compress` yields the empty stream and the code table
`{'a' ↦ ""}`, and `huffman_decompress` on that output returns `""`, not
`"aaaa"`. -/
theorem c1_round_trip_fails_on_single_symbol :
    huffman_compress ['a', 'a', 'a', 'a'] = some ([], [('a', [])]) ∧
      huffman_decompress [] [('a', [])] ≠ ['a', 'a', 'a', 'a'] := by
  constructor
  · simp +decide [huffman_compress, build_huffman_tree, heapify, buildLoop, insNode,
      countFreq, bump, build_codes, insertA, encodeAll, lookupA, leafOf,
      HuffmanNode.frequency]
  · decide

/-- C2.  The decoder is not the greedy longest-prefix decoder the spec
describes: on the bit-string `"00"` with code table `{'a' ↦ "00"}`, greedy
prefix decoding yields `"a"`, but `huffman_decompress` looks up single
characters only and returns `""`. -/
theorem c2_decoder_is_not_greedy :
    huffman_decompress ['0', '0'] [('a', ['0', '0'])] = [] ∧
      greedyDecode ['0', '0'] [('a', ['0', '0'])] = some ['a'] := by
  constructor
  · decide
  · simp +decide [greedyDecode, bestMatch, bmStep, isPre]

/-- C3.  Prefix-free law: in any code table produced by `huffman_compress`
(i.e. by `build_codes` on the `build_huffman_tree` tree), the code of one
symbol is never a proper prefix of the code of a different symbol. -/
theorem c3_prefix_free (input s : List Char) (C : List (Char × List Char))
    (x y : Char) (cx cy : List Char) (hcomp : huffman_compress input = some (s, C))
    (hxy : x ≠ y) (hcx : lookupA C x = some cx) (hcy : lookupA C y = some cy) :
    ¬ (cx <+: cy ∧ cx ≠ cy) := by
  obtain ⟨root, hbt, hCeq, -⟩ := compress_inv hcomp
  subst hCeq
  rw [codes_eq_codesList hbt] at hcx hcy
  have h1 : (x, cx) ∈ codesList root [] := lookupA_mem hcx
  have h2 : (y, cy) ∈ codesList root [] := lookupA_mem hcy
  have hne : ((x, cx) : Char × List Char) ≠ (y, cy) := fun h =>
    hxy (congrArg Prod.fst h)
  have hnp : NoPre (x, cx) (y, cy) :=
    (codesList_pairwise root []).forall noPre_symm h1 h2 hne
  exact fun hcon => hnp.1 hcon.1

theorem c3_prefix_free_witness :
    huffman_compress ['a', 'b'] = some (['0', '1'], [('a', ['0']), ('b', ['1'])]) ∧
      ¬ ((['0'] : List Char) <+: ['1'] ∧ (['0'] : List Char) ≠ ['1']) := by
  have hcomp : huffman_compress ['a', 'b'] =
      some (['0', '1'], [('a', ['0']), ('b', ['1'])]) := by
    simp +decide [huffman_compress, build_huffman_tree, heapify, buildLoop, insNode,
      countFreq, bump, build_codes, insertA, encodeAll, lookupA, leafOf,
      HuffmanNode.frequency]
  exact ⟨hcomp, c3_prefix_free ['a', 'b'] ['0', '1'] [('a', ['0']), ('b', ['1'])]
    'a' 'b' ['0'] ['1'] hcomp (by decide) (by decide) (by decide)⟩

/-- C4.  Empty input: compression fails exactly on the empty text (the
`unwrap` panic of `build_huffman_tree` on the empty heap is modelled as
`none`), and `build_huffman_tree` fails on the empty frequency table; no tree
or code table is produced. -/
theorem c4_empty_input_errors :
    (∀ input, huffman_compress input = none ↔ input = []) ∧
      build_huffman_tree [] = none := by
  constructor
  · intro input
    constructor
    · intro h
      by_contra hne
      obtain ⟨s, C, hsc⟩ := compress_some_of_ne_nil hne
      rw [h] at hsc
      exact Option.noConfusion hsc
    · rintro rfl
      simp [huffman_compress, build_huffman_tree, countFreq, heapify, buildLoop]
  · simp [build_huffman_tree, heapify, buildLoop]

/-- C5.  Single-symbol edge case fails on the code: compressing `"aaaa"`
does produce a one-entry code table, but the single code is the *empty*
bit-string, the encoded stream is empty, and decompression returns `""`
instead of `"aaaa"`. -/
theorem c5_single_symbol_empty_code :
    huffman_compress ['a', 'a', 'a', 'a'] = some ([], [('a', [])]) ∧
      lookupA [('a', ([] : List Char))] 'a' = some [] ∧
      huffman_decompress [] [('a', [])] = [] := by
  refine ⟨?_, by decide, by decide⟩
  simp +decide [huffman_compress, build_huffman_tree, heapify, buildLoop, insNode,
    countFreq, bump, build_codes, insertA, encodeAll, lookupA, leafOf,
    HuffmanNode.frequency]

/-- C6.  Code-length monotonicity: in the output of `huffman_compress`, a
symbol with strictly larger frequency receives a code no longer than a symbol
with strictly smaller frequency. -/
theorem c6_code_length_monotone (input s : List Char)
    (C : List (Char × List Char)) (x y : Char) (fx fy : Nat) (cx cy : List Char)
    (hcomp : huffman_compress input = some (s, C))
    (hfx : lookupA (countFreq input) x = some fx)
    (hfy : lookupA (countFreq input) y = some fy) (hlt : fy < fx)
    (hcx : lookupA C x = some cx) (hcy : lookupA C y = some cy) :
    cx.length ≤ cy.length := by
  obtain ⟨root, hbt, hCeq, -⟩ := compress_inv hcomp
  subst hCeq
  rw [codes_eq_codesList hbt] at hcx hcy
  have hDx : ∃ Dx, leafDepth root x = some Dx ∧ cx.length = Dx := by
    cases hld : leafDepth root x with
    | none =>
      rw [lookupA_codesList_none root [] x hld] at hcx
      exact Option.noConfusion hcx
    | some d =>
      obtain ⟨pp, hp, hlen⟩ := lookupA_codesList_some root [] x d hld
      rw [hp] at hcx
      cases hcx
      exact ⟨d, rfl, by simpa using hlen⟩
  have hDy : ∃ Dy, leafDepth root y = some Dy ∧ cy.length = Dy := by
    cases hld : leafDepth root y with
    | none =>
      rw [lookupA_codesList_none root [] y hld] at hcy
      exact Option.noConfusion hcy
    | some d =>
      obtain ⟨pp, hp, hlen⟩ := lookupA_codesList_some root [] y d hld
      rw [hp] at hcy
      cases hcy
      exact ⟨d, rfl, by simpa using hlen⟩
  obtain ⟨Dx, hldx, hlenx⟩ := hDx
  obtain ⟨Dy, hldy, hleny⟩ := hDy
  have hx_mem : leafOf (x, fx) ∈ heapify (countFreq input) :=
    mem_heapify (lookupA_mem hfx)
  have hy_mem : leafOf (y, fy) ∈ heapify (countFreq input) :=
    mem_heapify (lookupA_mem hfy)
  have hfreq : (leafOf (y, fy)).frequency < (leafOf (x, fx)).frequency := hlt
  have hbefore : Before (leafOf (y, fy)) (leafOf (x, fx))
      (heapify (countFreq input)) :=
    before_of_lt (heapify_sorted _) hy_mem hx_mem hfreq
  have hnd : (poolChars (heapify (countFreq input))).Nodup :=
    (heapify_poolChars _).nodup_iff.mpr (nodup_keys_countFreq input)
  have hbl : buildLoop (heapify (countFreq input)) = some root := hbt
  obtain ⟨-, P, -⟩ := pool_main (heapify (countFreq input)).length
    (heapify (countFreq input)) root rfl (heapify_sorted _) hnd hbl
  have hdrel : Drel root (leafOf (y, fy)) (leafOf (x, fx)) :=
    pairwise_of_before P hbefore
  have hdy0 : leafDepth (leafOf (y, fy)) y = some 0 := by simp [leafOf, leafDepth]
  have hdx0 : leafDepth (leafOf (x, fx)) x = some 0 := by simp [leafOf, leafDepth]
  have hmono := hdrel y x 0 0 Dy Dx hdy0 hdx0 hldy hldx
  omega

theorem c6_code_length_monotone_witness :
    huffman_compress ['a', 'a', 'b'] =
        some (['1', '1', '0'], [('b', ['0']), ('a', ['1'])]) ∧
      lookupA (countFreq ['a', 'a', 'b']) 'a' = some 2 ∧
      lookupA (countFreq ['a', 'a', 'b']) 'b' = some 1 ∧ (1 : Nat) < 2 ∧
      (['1'] : List Char).length ≤ (['0'] : List Char).length := by
  have hcomp : huffman_compress ['a', 'a', 'b'] =
      some (['1', '1', '0'], [('b', ['0']), ('a', ['1'])]) := by
    simp +decide [huffman_compress, build_huffman_tree, heapify, buildLoop, insNode,
      countFreq, bump, build_codes, insertA, encodeAll, lookupA, leafOf,
      HuffmanNode.frequency]
  refine ⟨hcomp, by decide, by decide, by decide, ?_⟩
  exact c6_code_length_monotone ['a', 'a', 'b'] ['1', '1', '0']
    [('b', ['0']), ('a', ['1'])] 'a' 'b' 2 1 ['1'] ['0'] hcomp
    (by decide) (by decide) (by decide) (by decide) (by decide)

/-- C7.  The encoder: when every input symbol has an entry in the code table,
the encoding step succeeds and returns exactly the concatenation, in input
order, of the symbols' codes. -/
theorem c7_encoder_concat (input : List Char) (codes : List (Char × List Char))
    (h : ∀ c ∈ input, (lookupA codes c).isSome) :
    encodeAll input codes =
      some ((input.map fun c => (lookupA codes c).getD []).flatten) := by
  induction input with
  | nil => rfl
  | cons c rest ih =>
    obtain ⟨p, hp⟩ := Option.isSome_iff_exists.mp (h c (List.mem_cons_self c rest))
    have hrest := ih fun z hz => h z (List.mem_cons_of_mem c hz)
    simp only [encodeAll, hp, hrest, List.map_cons, List.flatten_cons,
      Option.getD_some]

theorem c7_encoder_concat_witness :
    (∀ c ∈ (['a', 'b'] : List Char),
        (lookupA [('a', ['0']), ('b', ['1'])] c).isSome) ∧
      encodeAll ['a', 'b'] [('a', ['0']), ('b', ['1'])] =
        some ((['a', 'b'].map fun c =>
          (lookupA [('a', ['0']), ('b', ['1'])] c).getD []).flatten) :=
  ⟨by decide, c7_encoder_concat ['a', 'b'] [('a', ['0']), ('b', ['1'])] (by decide)⟩

/-- C8.  UnmatchedBits is not surfaced: on the bit-string `"0"` with code
table `{'b' ↦ "00"}` no code matches any prefix, so the spec decoder fails
(UnmatchedBits), but `huffman_decompress` silently skips the bit and returns
the successful value `""`. -/
theorem c8_unmatched_bits_silent :
    huffman_decompress ['0'] [('b', ['0', '0'])] = [] ∧
      greedyDecode ['0'] [('b', ['0', '0'])] = none := by
  constructor
  · decide
  · simp +decide [greedyDecode, bestMatch, bmStep, isPre]

/-- C9.  Two distinct symbols: compression succeeds, every code in the
generated table has length 1, and decompression reconstructs the input. -/
theorem c9_two_symbol_round_trip (input : List Char) (a b : Char) (hab : a ≠ b)
    (ha : a ∈ input) (hb : b ∈ input) (hsub : ∀ c ∈ input, c = a ∨ c = b) :
    ∃ s C, huffman_compress input = some (s, C) ∧
      (∀ c pc, lookupA C c = some pc → pc.length = 1) ∧
      huffman_decompress s C = input := by
  have hkeys := nodup_two_mem (nodup_keys_countFreq input) hab
    (mem_keys_countFreq.mpr ha) (mem_keys_countFreq.mpr hb)
    (fun c hc => hsub c (mem_keys_countFreq.mp hc))
  rcases hkeys with hk | hk
  · obtain ⟨na, nb, hcf⟩ := map_fst_pair hk
    exact compress_two_pairs hab hcf hsub
  · obtain ⟨nb, na, hcf⟩ := map_fst_pair hk
    exact compress_two_pairs (Ne.symm hab) hcf fun c hc => (hsub c hc).symm

theorem c9_two_symbol_round_trip_witness :
    (('a' : Char) ≠ 'b' ∧ 'a' ∈ (['a', 'b'] : List Char) ∧
        'b' ∈ (['a', 'b'] : List Char) ∧
        ∀ c ∈ (['a', 'b'] : List Char), c = 'a' ∨ c = 'b') ∧
      ∃ s C, huffman_compress ['a', 'b'] = some (s, C) ∧
        (∀ c pc, lookupA C c = some pc → pc.length = 1) ∧
        huffman_decompress s C = ['a', 'b'] :=
  ⟨⟨by decide, by decide, by decide, by decide⟩,
    c9_two_symbol_round_trip ['a', 'b'] 'a' 'b' (by decide) (by decide)
      (by decide) (by decide)⟩

/-- C10.  The decoder is total and never signals an error: it replaces each
single character `c` of the bit-string by the symbol whose code equals the
one-character string `[c]` (the last such table entry, matching the
`HashMap::insert` overwrite), and silently drops characters with no such
symbol. -/
theorem c10_decoder_per_char_total (s : List Char)
    (codes : List (Char × List Char)) :
    huffman_decompress s codes =
      s.filterMap fun bit =>
        (codes.reverse.find? fun e => decide (e.2 = [bit])).map Prod.fst := by
  unfold huffman_decompress
  congr 1
  funext bit
  exact lookupA_revMap codes [bit]

end Huffman
